import Mathlib

/-!
Shallow embedding of `src/etl_connector.py` (AlienVault OTX → MongoDB ETL
connector) and proofs of the specification's claims about it.

Python JSON-ish values are modelled by `PyVal`; Python `dict`s are modelled
as association lists built in insertion order, with `dictSet` giving the
semantics of `d[k] = v` (update in place, else append) and `pyDict` the
semantics of building a dict from a sequence of key/value pairs (as a dict
comprehension does).  Strings are compared lexicographically by code point,
exactly as Python compares `str` values; since Lean 4.14's built-in `String`
order does not reduce in the kernel, the comparison is defined directly on
the character list.
-/

/-- A Python/JSON value: `None`, `bool`, `int`, `str`, `list`, `dict`.
(Floats do not occur in the connector's own data paths that the claims
concern.)  Dicts are association lists in insertion order. -/
inductive PyVal where
  | null
  | bool (b : Bool)
  | int (n : Int)
  | str (s : String)
  | arr (xs : List PyVal)
  | obj (kvs : List (String × PyVal))

/-- Lexicographic code-point comparison of character lists: Python's `<` on
`str`, spelled out so that it reduces in the kernel. -/
def charListLt : List Char → List Char → Bool
  | [], [] => false
  | [], _ :: _ => true
  | _ :: _, [] => false
  | a :: as, b :: bs =>
    if a.toNat < b.toNat then true
    else if b.toNat < a.toNat then false
    else charListLt as bs

/-- Python `a < b` on strings. -/
def strLt (a b : String) : Bool := charListLt a.toList b.toList

/-- Python `a <= b` on strings (total order: not `b < a`). -/
def strLe (a b : String) : Bool := !(strLt b a)

/-- The larger of two strings in Python's string order. -/
def maxS (a b : String) : String := if strLt a b then b else a

/-- `key.replace('.', '_')` acts characterwise for a one-character pattern. -/
def dotRepl (c : Char) : Char := if c = '.' then '_' else c

/-- `safe_key` from the source: `key.replace('.', '_').lstrip('$')`.
`lstrip('$')` drops every leading `'$'` character. -/
def safe_key (key : String) : String :=
  String.mk ((key.toList.map dotRepl).dropWhile (fun c => c = '$'))

/-- Python `d[k] = v` on a dict: if the key is present its value is updated
in place (insertion position kept), otherwise the pair is appended. -/
def dictSet (d : List (String × PyVal)) (k : String) (v : PyVal) :
    List (String × PyVal) :=
  if d.any (fun kv => kv.1 = k) then
    d.map (fun kv => if kv.1 = k then (k, v) else kv)
  else d ++ [(k, v)]

/-- Python `d.get(k)`: the value stored under `k`, if any. -/
def dictGet (d : List (String × PyVal)) (k : String) : Option PyVal :=
  match d with
  | [] => none
  | kv :: r => if kv.1 = k then some kv.2 else dictGet r k

/-- Building a Python dict from a sequence of key/value pairs in order
(the semantics of a dict comprehension): repeated assignment into an
initially empty dict. -/
def pyDict (fs : List (String × PyVal)) : List (String × PyVal) :=
  fs.foldl (fun acc kv => dictSet acc kv.1 kv.2) []

mutual
/-- `make_mongo_safe` from the source: recursively rewrite every dict key
with `safe_key`, recurse into lists, return scalars unchanged.  The dict
comprehension is `pyDict` applied to the rewritten pairs. -/
def make_mongo_safe : PyVal → PyVal
  | .null => .null
  | .bool b => .bool b
  | .int n => .int n
  | .str s => .str s
  | .arr xs => .arr (mongoSafeList xs)
  | .obj kvs => .obj (pyDict (mongoSafeFields kvs))

/-- The list comprehension `[make_mongo_safe(i) for i in obj]`. -/
def mongoSafeList : List PyVal → List PyVal
  | [] => []
  | x :: xs => make_mongo_safe x :: mongoSafeList xs

/-- The rewritten pairs `(safe_key(k), make_mongo_safe(v))` in order. -/
def mongoSafeFields : List (String × PyVal) → List (String × PyVal)
  | [] => []
  | (k, v) :: r => (safe_key k, make_mongo_safe v) :: mongoSafeFields r
end

/-- A storage-safe dict key: contains no `'.'` and does not begin with
`'$'` (the characters MongoDB reserves). -/
def goodKey (k : String) : Bool :=
  k.toList.all (fun c => c ≠ '.') && !(k.toList.head?.any (fun c => c = '$'))

mutual
/-- Every dict key at every nesting depth of the value is storage-safe. -/
def allKeysSafe : PyVal → Bool
  | .obj kvs => fieldsKeysSafe kvs
  | .arr xs => listKeysSafe xs
  | _ => true

/-- `allKeysSafe` over the elements of a list. -/
def listKeysSafe : List PyVal → Bool
  | [] => true
  | x :: xs => allKeysSafe x && listKeysSafe xs

/-- `allKeysSafe` over the pairs of a dict, checking each key. -/
def fieldsKeysSafe : List (String × PyVal) → Bool
  | [] => true
  | (k, v) :: r => goodKey k && allKeysSafe v && fieldsKeysSafe r
end

/-- Python truthiness of a value: `None`, `False`, `0`, `""`, `[]`, and
`{}` are falsy, everything else truthy. -/
def pyTruthy : PyVal → Bool
  | .null => false
  | .bool b => b
  | .int n => n != 0
  | .str s => s ≠ ""
  | .arr xs => !xs.isEmpty
  | .obj kvs => !kvs.isEmpty

/-- Python `a or b` over optional values (`none` models an absent value /
`None`): the left operand if truthy, else the right. -/
def pyOrOpt (a b : Option PyVal) : Option PyVal :=
  match a with
  | some v => if pyTruthy v then some v else b
  | none => b

mutual
/-- Structural equality of values (used to model MongoDB's filter matching
on natural keys; dict pairs are compared in insertion order). -/
def pyBeq : PyVal → PyVal → Bool
  | .null, .null => true
  | .bool a, .bool b => a == b
  | .int a, .int b => a == b
  | .str a, .str b => a == b
  | .arr as, .arr bs => pyBeqList as bs
  | .obj as, .obj bs => pyBeqFields as bs
  | _, _ => false

/-- `pyBeq` elementwise on lists. -/
def pyBeqList : List PyVal → List PyVal → Bool
  | [], [] => true
  | a :: as, b :: bs => pyBeq a b && pyBeqList as bs
  | _, _ => false

/-- `pyBeq` pairwise on dict pairs. -/
def pyBeqFields : List (String × PyVal) → List (String × PyVal) → Bool
  | [], [] => true
  | (k, v) :: r, (k', v') :: r' => k == k' && pyBeq v v' && pyBeqFields r r'
  | _, _ => false
end

mutual
/-- Python `==` between values: numeric types compare by value (`True == 1`),
lists elementwise, dicts by their pairs (modelled in insertion order; the
dicts the connector compares originate from the same JSON decoding), and
mixed types are unequal. -/
def pyEq : PyVal → PyVal → Bool
  | .null, .null => true
  | .bool a, .bool b => a == b
  | .int a, .int b => a == b
  | .bool a, .int b => (if a then (1 : Int) else 0) == b
  | .int a, .bool b => a == (if b then (1 : Int) else 0)
  | .str a, .str b => a == b
  | .arr as, .arr bs => pyEqList as bs
  | .obj as, .obj bs => pyEqFields as bs
  | _, _ => false

/-- `pyEq` elementwise on lists. -/
def pyEqList : List PyVal → List PyVal → Bool
  | [], [] => true
  | a :: as, b :: bs => pyEq a b && pyEqList as bs
  | _, _ => false

/-- `pyEq` pairwise on dict pairs. -/
def pyEqFields : List (String × PyVal) → List (String × PyVal) → Bool
  | [], [] => true
  | (k, v) :: r, (k', v') :: r' => k == k' && pyEq v v' && pyEqFields r r'
  | _, _ => false
end

mutual
/-- Python `a > b` between values, as an `Option Bool`: `none` models a
`TypeError` (e.g. `str` against `int`, or anything against `None` or a
dict).  Numbers compare by value, strings lexicographically by code point,
lists lexicographically using `==` then `>` as Python does. -/
def pyGt : PyVal → PyVal → Option Bool
  | .int a, .int b => some (decide (b < a))
  | .bool a, .bool b => some (decide ((if b then (1 : Int) else 0) < (if a then 1 else 0)))
  | .bool a, .int b => some (decide (b < (if a then (1 : Int) else 0)))
  | .int a, .bool b => some (decide ((if b then (1 : Int) else 0) < a))
  | .str a, .str b => some (strLt b a)
  | .arr as, .arr bs => pyGtList as bs
  | _, _ => none

/-- Python list comparison: first index whose elements are not `==` decides
via `>`; a pure prefix compares by length. -/
def pyGtList : List PyVal → List PyVal → Option Bool
  | [], [] => some false
  | [], _ :: _ => some false
  | _ :: _, [] => some true
  | a :: as, b :: bs => if pyEq a b then pyGtList as bs else pyGt a b
end

/-- `json.dumps(s)` escaping for the characters that can occur in the
connector's data (quote, backslash and common control characters; the
inputs in scope are ASCII, so `ensure_ascii` escaping of non-ASCII
characters is not modelled). -/
def escChar (c : Char) : String :=
  if c = '"' then "\\\""
  else if c = '\\' then "\\\\"
  else if c = '\n' then "\\n"
  else if c = '\t' then "\\t"
  else if c = '\r' then "\\r"
  else String.singleton c

/-- A JSON string literal. -/
def jsonStr (s : String) : String :=
  "\"" ++ s.toList.foldr (fun c acc => escChar c ++ acc) "" ++ "\""

/-- Stable insertion of a rendered pair into a key-sorted list
(`sort_keys=True` sorts each dict's pairs by key). -/
def insertSorted (x : String × String) :
    List (String × String) → List (String × String)
  | [] => [x]
  | y :: ys => if strLe x.1 y.1 then x :: y :: ys else y :: insertSorted x ys

/-- Sort rendered pairs by key (stable, ascending), as `sort_keys=True`. -/
def sortPairs (l : List (String × String)) : List (String × String) :=
  l.foldr insertSorted []

/-- Render sorted pairs with `json.dumps`' default `': '` separator. -/
def renderPairs (l : List (String × String)) : List String :=
  l.map (fun kv => jsonStr kv.1 ++ ": " ++ kv.2)

/-- Join with `json.dumps`' default `', '` separator. -/
def joinComma (l : List String) : String := String.intercalate ", " l

mutual
/-- `json.dumps(v, sort_keys=True)`: the canonical JSON serialization used
by `upsert_pulse`'s fingerprint. -/
def canonicalJson : PyVal → String
  | .null => "null"
  | .bool b => if b then "true" else "false"
  | .int n => toString n
  | .str s => jsonStr s
  | .arr xs => "[" ++ joinComma (canonList xs) ++ "]"
  | .obj kvs => "\x7b" ++ joinComma (renderPairs (sortPairs (canonFields kvs))) ++ "\x7d"

/-- `canonicalJson` over list elements. -/
def canonList : List PyVal → List String
  | [] => []
  | x :: xs => canonicalJson x :: canonList xs

/-- Keys paired with the serialization of their values. -/
def canonFields : List (String × PyVal) → List (String × String)
  | [] => []
  | (k, v) :: r => (k, canonicalJson v) :: canonFields r
end

/-- A document as stored: the association list of its fields. -/
abbrev Doc := List (String × PyVal)

/-- The natural key `upsert_pulse` filters on: `{id, revision}` when the
document's `id` is present and not `None`, else
`{_hash: hash(json.dumps(doc, sort_keys=True))}`.  Python's `hash` of the
canonical string is modelled by keying on the string itself (equal strings
hash equal; the distinct strings arising here are modelled as distinct). -/
inductive NatKey where
  | idRev (id : PyVal) (rev : Option PyVal)
  | fingerprint (canon : String)

/-- Equality test on natural keys (MongoDB filter matching by value). -/
def keyBeq : NatKey → NatKey → Bool
  | .idRev i r, .idRev i' r' =>
    pyBeq i i' &&
      (match r, r' with
       | none, none => true
       | some v, some v' => pyBeq v v'
       | _, _ => false)
  | .fingerprint s, .fingerprint t => s == t
  | _, _ => false

/-- `upsert_pulse`'s key computation: `doc.get("id")` is `None` both when
the field is absent and when it is JSON `null`. -/
def naturalKey (doc : Doc) : NatKey :=
  match dictGet doc "id" with
  | none => .fingerprint (canonicalJson (.obj doc))
  | some .null => .fingerprint (canonicalJson (.obj doc))
  | some i => .idRev i (dictGet doc "revision")

/-- The stored collection: documents indexed by the natural key they were
upserted under. -/
abbrev Store := List (NatKey × Doc)

/-- `update_one(key, {"$set": doc})` on a matched document sets every field
of `doc` on it, in order. -/
def setFields (old new : Doc) : Doc :=
  new.foldl (fun acc kv => dictSet acc kv.1 kv.2) old

/-- Apply `$set doc` to the first stored document matching the key. -/
def replaceFirst : Store → NatKey → Doc → Store
  | [], _, _ => []
  | e :: r, k, doc =>
    if keyBeq e.1 k then (e.1, setFields e.2 doc) :: r
    else e :: replaceFirst r k doc

/-- `upsert_pulse` from the source: `update_one(key, {"$set": doc},
upsert=True)` — update the first match, else insert. -/
def upsert_pulse (s : Store) (doc : Doc) : Store :=
  let key := naturalKey doc
  if s.any (fun e => keyBeq e.1 key) then replaceFirst s key doc
  else s ++ [(key, doc)]

/-- One fetched page: its `results` records and optional `next` URL
(`page.get("results", [])` / `page.get("next")`). -/
structure Page where
  next : Option String
  results : List PyVal

/-- The watermark candidate of a record:
`mod = p.get("modified") or p.get("created")`, kept only `if mod:` is
truthy.  A non-dict record raises inside the guarded `try` block, which is
swallowed (`except Exception: pass`), so it contributes nothing. -/
def wmCand (p : PyVal) : Option PyVal :=
  match p with
  | .obj kvs =>
    match pyOrOpt (dictGet kvs "modified") (dictGet kvs "created") with
    | some m => if pyTruthy m then some m else none
    | none => none
  | _ => none

/-- One step of the watermark tracking in `run`'s record loop:
`if (latest is None) or (mod > latest): latest = mod`, where a `TypeError`
from the comparison is swallowed by the surrounding `except`. -/
def wmStep (latest : Option PyVal) (p : PyVal) : Option PyVal :=
  match wmCand p with
  | none => latest
  | some m =>
    match latest with
    | none => some m
    | some l =>
      match pyGt m l with
      | some true => some m
      | some false => some l
      | none => some l

/-- The tracked watermark after the given records, from a string seed
(`latest_modified_seen = modified_since` at the top of `run`). -/
def runLatest (seed : Option String) (records : List PyVal) : Option PyVal :=
  records.foldl wmStep (Option.map PyVal.str seed)

/-- The string candidate of a record, when its watermark candidate is a
string. -/
def wmCandStr (p : PyVal) : Option String :=
  match wmCand p with
  | some (.str s) => some s
  | _ => none

/-- Every record's watermark candidate, if any, is a (timestamp) string. -/
def wmAllStr (records : List PyVal) : Bool :=
  records.all (fun p =>
    match wmCand p with
    | some (.str _) => true
    | some _ => false
    | none => true)

/-- The maximum of an optional seed and a list of strings, in Python's
string order (the claim's "maximum by timestamp ordering" over ISO-8601
UTC strings). -/
def strListMax (l : Option String) (vals : List String) : Option String :=
  vals.foldl
    (fun a v =>
      match a with
      | none => some v
      | some a' => some (maxS a' v)) l

/-- The per-record metadata attachment in `run`:
`doc["_source"] = ...; doc["ingested_at"] = ...; doc["run_id"] = ...;
doc["page_no"] = ...` on the rewritten record. -/
def envelopeDoc (kvs : Doc) (runId now : String) (pageNo : Nat) : Doc :=
  dictSet
    (dictSet
      (dictSet
        (dictSet kvs "_source" (.str "otx_pulses_subscribed"))
        "ingested_at" (.str now))
      "run_id" (.str runId))
    "page_no" (.int (Int.ofNat pageNo))

/-- The mutable state of `run`'s main loop. -/
structure RunState where
  page_no : Nat
  docs_ingested : Nat
  latest : Option PyVal
  store : Option Store
  clock : Nat

/-- A Python `for` loop whose body may raise: fold that propagates the
first error. -/
def foldE {σ α ε : Type} (f : σ → α → Except ε σ) : σ → List α → Except ε σ
  | st, [] => .ok st
  | st, x :: xs =>
    match f st x with
    | .error e => .error e
    | .ok st' => foldE f st' xs

/-- The body of `run`'s inner record loop: rewrite keys, attach the
envelope, track the watermark, upsert unless the collection is `None`
(dry run), and count the document.  Attaching metadata to a non-dict
record raises a `TypeError`, which `run` does not catch. -/
def processRecord (runId : String) (nowAt : Nat → String) (st : RunState)
    (p : PyVal) : Except String RunState :=
  match make_mongo_safe p with
  | .obj kvs =>
    let doc := envelopeDoc kvs runId (nowAt st.clock) st.page_no
    let latest := wmStep st.latest p
    let store := Option.map (fun s => upsert_pulse s doc) st.store
    .ok ⟨st.page_no, st.docs_ingested + 1, latest, store, st.clock + 1⟩
  | _ => .error "TypeError: item assignment on non-dict record"

/-- One iteration of `run`'s page loop: `page_no += 1`, then every record
of `page.get("results", [])` in order. -/
def processPage (runId : String) (nowAt : Nat → String) (st : RunState)
    (pg : Page) : Except String RunState :=
  foldE (processRecord runId nowAt)
    ⟨st.page_no + 1, st.docs_ingested, st.latest, st.store, st.clock⟩
    pg.results

/-- The observable outcome of `run`'s load/watermark phase. -/
structure RunResult where
  store : Option Store
  docs_ingested : Nat
  latest : Option PyVal
  saved : Option PyVal
  pagesSeen : Nat

/-- `if latest_modified_seen: save_watermark(...)` — the value written to
the watermark file, if any. -/
def savedOf : Option PyVal → Option PyVal
  | some v => if pyTruthy v then some v else none
  | none => none

/-- `run`'s extraction+load loop over already-fetched pages: the collection
is `None` exactly when `--dry-run` is set (`connect_mongo` is never
called), otherwise it starts from the given prior store contents.
`nowAt` supplies the successive `iso_now()` readings and `runId` the
single `uuid4` of the invocation. -/
def runModel (dryRun : Bool) (runId : String) (nowAt : Nat → String)
    (seed : Option String) (store₀ : Store) (pages : List Page) :
    Except String RunResult :=
  match foldE (processPage runId nowAt)
      ⟨0, 0, Option.map PyVal.str seed, if dryRun then none else some store₀, 0⟩
      pages with
  | .error e => .error e
  | .ok st =>
    .ok ⟨st.store, st.docs_ingested, st.latest, savedOf st.latest, st.page_no⟩

/-- All records of a run, in arrival order. -/
def pagesRecords (pages : List Page) : List PyVal :=
  (pages.map (fun pg => pg.results)).flatten

/-- An HTTP response as the connector sees it: status code, body text and
decoded JSON body. -/
structure HttpResponse where
  status : Nat
  text : String
  body : PyVal

/-- `validate_api_key` from the source: any non-200 status raises
`RuntimeError(f"OTX API key validation failed: {status} {text[:200]}")`,
otherwise `r.json()` is returned. -/
def validate_api_key (r : HttpResponse) : Except String PyVal :=
  if r.status ≠ 200 then
    .error ("OTX API key validation failed: " ++ toString r.status ++ " "
      ++ r.text.take 200)
  else .ok r.body

/-- The query parameters of the first listing request: `{"limit": limit}`
plus `modified_since` when truthy (`if modified_since:`). -/
structure ReqParams where
  limit : Nat
  modified_since : Option String

/-- The initial `params` dict built by `fetch_pulses`. -/
def initParams (limit : Nat) (ms : Option String) : ReqParams :=
  ⟨limit, match ms with
          | some s => if s = "" then none else some s
          | none => none⟩

/-- A GET request issued by the extractor: the exact URL and the query
parameters passed alongside it (`None` after the first page, and also
when the URL already carries a query string). -/
structure Request where
  url : String
  params : Option ReqParams

/-- `'?' in url`. -/
def hasQuery (url : String) : Bool := url.toList.any (fun c => c = '?')

/-- The constant first URL, `urljoin(OTX_BASE, OTX_PULSES_SUBSCRIBED)`. -/
def otxPulsesSubscribedUrl : String :=
  "https://otx.alienvault.com/api/v1/pulses/subscribed"

/-- The `while url:` loop of `fetch_pulses` over an abstract server
(`server url` is the parsed 200 response for `url`, or the fatal
`RuntimeError` text for a non-200 response).  Each iteration issues one
request — with `params` suppressed when the URL has a query string — then
continues at `data.get("next")` with `params = None`.  The `fuel` bound
makes the recursion well-founded; the pagination-termination claim shows a
finite chain is exhausted with any sufficient fuel. -/
def fetchGo (server : String → Except String Page) :
    Nat → String → Option ReqParams → Except String (List (Request × Page))
  | 0, _, _ => .ok []
  | fuel + 1, url, params =>
    let req : Request := ⟨url, if hasQuery url then none else params⟩
    match server url with
    | .error e => .error e
    | .ok page =>
      match page.next with
      | none => .ok [(req, page)]
      | some u =>
        match fetchGo server fuel u none with
        | .error e => .error e
        | .ok rest => .ok ((req, page) :: rest)

/-- `fetch_pulses` from the source: start at the subscribed-pulses URL with
`{"limit": limit}` (+ truthy `modified_since`) and follow `next` links. -/
def fetch_pulses (server : String → Except String Page) (limit : Nat)
    (ms : Option String) (fuel : Nat) : Except String (List (Request × Page)) :=
  fetchGo server fuel otxPulsesSubscribedUrl (some (initParams limit ms))

/-- The request/page chain a successful extraction is expected to produce
from a chain of pages: the first request carries the initial params (unless
its URL already has a query string), every later request carries none. -/
def expectedChain (p₀ : Option ReqParams) :
    List (String × Page) → List (Request × Page)
  | [] => []
  | (u, pg) :: rest =>
    (⟨u, if hasQuery u then none else p₀⟩, pg)
      :: rest.map (fun e => (⟨e.1, none⟩, e.2))

/-- The state of the persisted watermark file as `load_watermark` can find
it: missing, unreadable/unparseable JSON, or parsed JSON whose
`modified_since` field is the given optional string (the program itself
only ever writes a string there, via `save_watermark`). -/
inductive WmFile where
  | absent
  | unreadable
  | parsed (ms : Option String)

/-- `load_watermark` from the source: an empty path or a missing file gives
`None`; any exception while reading/parsing gives `None`; otherwise
`data.get('modified_since')`.  Totality of this function is the model of
"absent or corrupt file is treated as no watermark rather than fatal". -/
def load_watermark (path : String) (file : WmFile) : Option String :=
  if path = "" then none
  else
    match file with
    | .absent => none
    | .unreadable => none
    | .parsed ms => ms

/-- Python `a or b` on optional strings (`""` is falsy). -/
def pyOrS (a b : Option String) : Option String :=
  match a with
  | none => b
  | some s => if s = "" then b else some s

/-- The resume-point resolution in `run`:
`since_env = default_since or None`,
`since_file = None if args.no_watermark else load_watermark(...)`,
`modified_since = since_cli or since_file or since_env`. -/
def resolveSince (cli : Option String) (noWm : Bool) (path : String)
    (file : WmFile) (envDefault : String) : Option String :=
  let sinceEnv := pyOrS (some envDefault) none
  let sinceFile := if noWm then none else load_watermark path file
  pyOrS (pyOrS cli sinceFile) sinceEnv

/-- The resolution order as the specification states it: explicit CLI
override first, then the persisted file value (unless skipped), then the
configured default, else none.  (Spec-side definition, for comparison with
`resolveSince`.) -/
def resolveSinceSpec (cli : Option String) (noWm : Bool) (path : String)
    (file : WmFile) (dflt : Option String) : Option String :=
  match cli with
  | some s => some s
  | none =>
    match (if noWm then none else load_watermark path file) with
    | some w => some w
    | none => dflt

/-- The observable outcome of one process invocation (`__main__`):
exit code, the `[fatal]` diagnostic printed to stderr if any, whether any
listing request was issued, and the run's result on success. -/
structure MainOutcome where
  exitCode : Nat
  fatalLine : Option String
  fetchAttempted : Bool
  result : Option RunResult

/-- `__main__` + `run` end to end: resolve the resume point, validate the
key (aborting with exit 1 and a `[fatal]` line before any listing request
on failure), extract the pages, process them, with any uncaught exception
also producing exit 1 and a `[fatal]` line.  (The generator interleaves
fetching and processing; on the success path this is equivalent to
fetching all pages first, which is how it is modelled.) -/
def mainModel (authResp : HttpResponse) (server : String → Except String Page)
    (limit : Nat) (fuel : Nat) (dryRun : Bool) (runId : String)
    (nowAt : Nat → String) (cli : Option String) (noWm : Bool) (path : String)
    (file : WmFile) (envDefault : String) (store₀ : Store) : MainOutcome :=
  let ms := resolveSince cli noWm path file envDefault
  match validate_api_key authResp with
  | .error e => ⟨1, some ("[fatal] " ++ e), false, none⟩
  | .ok _ =>
    match fetch_pulses server limit ms fuel with
    | .error e => ⟨1, some ("[fatal] " ++ e), true, none⟩
    | .ok reqPages =>
      match runModel dryRun runId nowAt ms store₀ (reqPages.map (fun e => e.2)) with
      | .error e => ⟨1, some ("[fatal] " ++ e), true, none⟩
      | .ok r => ⟨0, none, true, some r⟩

/-- A page holding one record with no `id` field, for exercising the
fingerprint path of `upsert_pulse` across two runs. -/
def c1page : Page := ⟨none, [PyVal.obj [("name", PyVal.str "x")]]⟩

/-- The store after a first run over `c1page` into an empty collection. -/
def c1s1 : Store :=
  match runModel false "run-1" (fun _ => "2025-01-01T00:00:00+00:00") none
      [] [c1page] with
  | .ok r => r.store.getD []
  | .error _ => []

/-- The store after re-running over the identical page, same resume point,
with a fresh run identifier and clock. -/
def c1s2 : Store :=
  match runModel false "run-2" (fun _ => "2025-01-02T00:00:00+00:00") none
      c1s1 [c1page] with
  | .ok r => r.store.getD []
  | .error _ => []


/-- The second-page URL of a two-page chain (carries its own query). -/
def c4url2 : String :=
  "https://otx.alienvault.com/api/v1/pulses/subscribed?page=2"

/-- A two-page server: the subscribed-pulses URL links to `c4url2`, which
is the final page; anything else is a non-200 fetch error. -/
def c4server (u : String) : Except String Page :=
  if u = otxPulsesSubscribedUrl then .ok ⟨some c4url2, [PyVal.obj []]⟩
  else if u = c4url2 then .ok ⟨none, [PyVal.obj []]⟩
  else .error "Fetch error: 404"

/-- The two-page chain served by `c4server`. -/
def c4chain : List (String × Page) :=
  [(otxPulsesSubscribedUrl, ⟨some c4url2, [PyVal.obj []]⟩),
   (c4url2, ⟨none, [PyVal.obj []]⟩)]

/-! ### Helper lemmas: characters, `safe_key`, dict building -/

theorem dotRepl_ne_dot (c : Char) : dotRepl c ≠ '.' := by
  unfold dotRepl
  split
  · decide
  · assumption

theorem dotRepl_of_ne (c : Char) (h : c ≠ '.') : dotRepl c = c := by
  unfold dotRepl
  exact if_neg h

theorem dropWhile_head_false (p : Char → Bool) (l : List Char) (c : Char)
    (h : (l.dropWhile p).head? = some c) : p c = false := by
  induction l with
  | nil => simp [List.dropWhile] at h
  | cons a l ih =>
    by_cases hp : p a
    · rw [List.dropWhile_cons_of_pos hp] at h
      exact ih h
    · rw [List.dropWhile_cons_of_neg hp] at h
      simp at h
      rw [← h]
      exact Bool.not_eq_true _ ▸ hp

theorem dropWhile_self (p : Char → Bool) (l : List Char) :
    (l.dropWhile p).dropWhile p = l.dropWhile p := by
  induction l with
  | nil => rfl
  | cons a l ih =>
    by_cases hp : p a
    · rw [List.dropWhile_cons_of_pos hp]
      exact ih
    · rw [List.dropWhile_cons_of_neg hp, List.dropWhile_cons_of_neg hp]

theorem safe_key_toList (k : String) :
    (safe_key k).toList = (k.toList.map dotRepl).dropWhile (fun c => c = '$') := rfl

theorem safe_key_no_dot (k : String) : ∀ c ∈ (safe_key k).toList, c ≠ '.' := by
  intro c hc
  rw [safe_key_toList] at hc
  have hc' : c ∈ k.toList.map dotRepl :=
    (List.dropWhile_sublist (fun c => c = '$')).subset hc
  rcases List.mem_map.mp hc' with ⟨y, _, hy⟩
  rw [← hy]
  exact dotRepl_ne_dot y

theorem safe_key_head (k : String) (c : Char)
    (h : (safe_key k).toList.head? = some c) : c ≠ '$' := by
  rw [safe_key_toList] at h
  have := dropWhile_head_false (fun c => c = '$') (k.toList.map dotRepl) c h
  simpa using this

theorem goodKey_safe_key (k : String) : goodKey (safe_key k) = true := by
  unfold goodKey
  apply Bool.and_eq_true_iff.mpr
  constructor
  · rw [List.all_eq_true]
    intro c hc
    simpa using safe_key_no_dot k c hc
  · rw [Bool.not_eq_true']
    cases hh : (safe_key k).toList.head? with
    | none => rfl
    | some c =>
      simp only [Option.any_some]
      simpa using safe_key_head k c hh

theorem safe_key_idem (k : String) : safe_key (safe_key k) = safe_key k := by
  unfold safe_key
  apply congrArg String.mk
  have htl : (String.mk ((k.toList.map dotRepl).dropWhile (fun c => c = '$'))).toList
      = (k.toList.map dotRepl).dropWhile (fun c => c = '$') := rfl
  rw [htl]
  have hmap : ((k.toList.map dotRepl).dropWhile (fun c => c = '$')).map dotRepl
      = (k.toList.map dotRepl).dropWhile (fun c => c = '$') := by
    rw [List.map_congr_left ?_]
    · exact List.map_id _
    · intro c hc
      have hc' : c ∈ k.toList.map dotRepl :=
        (List.dropWhile_sublist (fun c => c = '$')).subset hc
      rcases List.mem_map.mp hc' with ⟨y, _, hy⟩
      rw [← hy]
      exact dotRepl_of_ne (dotRepl y) (dotRepl_ne_dot y)
  rw [hmap]
  exact dropWhile_self _ _

theorem dictSet_mem (d : List (String × PyVal)) (k : String) (v : PyVal)
    (kv : String × PyVal) (h : kv ∈ dictSet d k v) :
    kv = (k, v) ∨ (kv ∈ d ∧ kv.1 ≠ k) := by
  unfold dictSet at h
  split at h
  · rcases List.mem_map.mp h with ⟨kv', hkv', heq⟩
    by_cases hk : kv'.1 = k
    · left
      rw [← heq, if_pos hk]
    · right
      rw [← heq, if_neg hk]
      exact ⟨hkv', hk⟩
  · next hany =>
    rcases List.mem_append.mp h with h' | h'
    · right
      refine ⟨h', ?_⟩
      intro hk
      rw [List.any_eq_true] at hany
      exact hany ⟨kv, h', by simpa using hk⟩
    · left
      simpa using h'

theorem pyDict_subset (fs : List (String × PyVal)) :
    ∀ kv ∈ pyDict fs, kv ∈ fs := by
  suffices h : ∀ (fs acc : List (String × PyVal)),
      ∀ kv ∈ fs.foldl (fun acc kv => dictSet acc kv.1 kv.2) acc,
        kv ∈ acc ∨ kv ∈ fs by
    intro kv hkv
    rcases h fs [] kv hkv with h' | h'
    · exact absurd h' (List.not_mem_nil kv)
    · exact h'
  intro fs
  induction fs with
  | nil => intro acc kv h; exact Or.inl h
  | cons f fs ih =>
    intro acc kv h
    rcases ih (dictSet acc f.1 f.2) kv h with h' | h'
    · rcases dictSet_mem acc f.1 f.2 kv h' with h'' | h''
      · right
        rw [h'']
        exact List.mem_cons_self _ _
      · exact Or.inl h''.1
    · right
      exact List.mem_cons_of_mem f h'

theorem dictSet_keys (d : List (String × PyVal)) (k : String) (v : PyVal) :
    (dictSet d k v).map Prod.fst = d.map Prod.fst
      ∨ (dictSet d k v).map Prod.fst = d.map Prod.fst ++ [k] := by
  unfold dictSet
  split
  · left
    rw [List.map_map]
    apply List.map_congr_left
    intro kv _
    by_cases hk : kv.1 = k
    · simp [hk]
    · simp [hk]
  · right
    simp

theorem dictSet_keys_nodup (d : List (String × PyVal)) (k : String) (v : PyVal)
    (h : (d.map Prod.fst).Nodup) : ((dictSet d k v).map Prod.fst).Nodup := by
  unfold dictSet
  split
  · next hany =>
    have : (d.map (fun kv => if kv.1 = k then (k, v) else kv)).map Prod.fst
        = d.map Prod.fst := by
      rw [List.map_map]
      apply List.map_congr_left
      intro kv _
      by_cases hk : kv.1 = k
      · simp [hk]
      · simp [hk]
    rw [this]
    exact h
  · next hany =>
    rw [List.map_append]
    rw [List.nodup_append]
    refine ⟨h, by simp, ?_⟩
    intro a ha hb
    simp only [List.map_cons, List.map_nil, List.mem_singleton] at hb
    rcases List.mem_map.mp ha with ⟨kv, hkv, hfst⟩
    apply hany
    refine List.any_eq_true.mpr ⟨kv, hkv, ?_⟩
    rw [hb] at hfst
    simpa using hfst

theorem pyDict_keys_nodup (fs : List (String × PyVal)) :
    ((pyDict fs).map Prod.fst).Nodup := by
  suffices h : ∀ (fs acc : List (String × PyVal)), (acc.map Prod.fst).Nodup →
      ((fs.foldl (fun acc kv => dictSet acc kv.1 kv.2) acc).map Prod.fst).Nodup by
    exact h fs [] (by simp)
  intro fs
  induction fs with
  | nil => intro acc h; exact h
  | cons f fs ih =>
    intro acc h
    exact ih (dictSet acc f.1 f.2) (dictSet_keys_nodup acc f.1 f.2 h)

theorem dictSet_append_of_not_mem (d : List (String × PyVal)) (k : String)
    (v : PyVal) (h : ∀ kv ∈ d, kv.1 ≠ k) : dictSet d k v = d ++ [(k, v)] := by
  unfold dictSet
  rw [if_neg]
  rw [Bool.not_eq_true, List.any_eq_false]
  intro kv hkv
  simpa using h kv hkv

theorem pyDict_of_nodup (fs : List (String × PyVal))
    (h : (fs.map Prod.fst).Nodup) : pyDict fs = fs := by
  suffices hgen : ∀ (fs acc : List (String × PyVal)),
      ((acc ++ fs).map Prod.fst).Nodup →
      fs.foldl (fun acc kv => dictSet acc kv.1 kv.2) acc = acc ++ fs by
    have := hgen fs [] (by simpa using h)
    simpa using this
  intro fs
  induction fs with
  | nil => intro acc _; simp [pyDict]
  | cons f fs ih =>
    intro acc h
    have hne : ∀ kv ∈ acc, kv.1 ≠ f.1 := by
      intro kv hkv heq
      rw [List.map_append, List.nodup_append] at h
      exact h.2.2 (List.mem_map.mpr ⟨kv, hkv, rfl⟩) (by rw [heq]; simp)
    have hstep : dictSet acc f.1 f.2 = acc ++ [f] :=
      dictSet_append_of_not_mem acc f.1 f.2 hne
    simp only [List.foldl_cons, hstep]
    rw [ih (acc ++ [f]) (by simpa using h)]
    simp

/-! ### Fixpoint lemmas for `make_mongo_safe` -/

theorem mongoSafeList_of_fix (xs : List PyVal)
    (h : ∀ y ∈ xs, make_mongo_safe y = y) : mongoSafeList xs = xs := by
  induction xs with
  | nil => rfl
  | cons x xs ih =>
    rw [mongoSafeList, h x (List.mem_cons_self x xs),
      ih (fun y hy => h y (List.mem_cons_of_mem x hy))]

theorem mongoSafeFields_of_fix (fs : List (String × PyVal))
    (h : ∀ kv ∈ fs, safe_key kv.1 = kv.1 ∧ make_mongo_safe kv.2 = kv.2) :
    mongoSafeFields fs = fs := by
  induction fs with
  | nil => rfl
  | cons f fs ih =>
    rcases f with ⟨k, v⟩
    rw [mongoSafeFields,
      (h (k, v) (List.mem_cons_self _ _)).1,
      (h (k, v) (List.mem_cons_self _ _)).2,
      ih (fun kv hkv => h kv (List.mem_cons_of_mem _ hkv))]

mutual
theorem make_mongo_safe_idem : ∀ (v : PyVal),
    make_mongo_safe (make_mongo_safe v) = make_mongo_safe v
  | .null => rfl
  | .bool _ => rfl
  | .int _ => rfl
  | .str _ => rfl
  | .arr xs => by
    rw [make_mongo_safe, make_mongo_safe,
      mongoSafeList_of_fix (mongoSafeList xs) (mongoSafeList_fix xs)]
  | .obj kvs => by
    rw [make_mongo_safe, make_mongo_safe,
      mongoSafeFields_of_fix (pyDict (mongoSafeFields kvs))
        (fun kv hkv => mongoSafeFields_fix kvs kv (pyDict_subset _ kv hkv)),
      pyDict_of_nodup _ (pyDict_keys_nodup (mongoSafeFields kvs))]

theorem mongoSafeList_fix : ∀ (xs : List PyVal),
    ∀ y ∈ mongoSafeList xs, make_mongo_safe y = y
  | [] => by intro y hy; exact absurd hy (List.not_mem_nil y)
  | x :: xs => by
    intro y hy
    rw [mongoSafeList] at hy
    rcases List.mem_cons.mp hy with h | h
    · rw [h]
      exact make_mongo_safe_idem x
    · exact mongoSafeList_fix xs y h

theorem mongoSafeFields_fix : ∀ (fs : List (String × PyVal)),
    ∀ kv ∈ mongoSafeFields fs, safe_key kv.1 = kv.1 ∧ make_mongo_safe kv.2 = kv.2
  | [] => by intro kv hkv; exact absurd hkv (List.not_mem_nil kv)
  | (k, v) :: fs => by
    intro kv hkv
    rw [mongoSafeFields] at hkv
    rcases List.mem_cons.mp hkv with h | h
    · rw [h]
      exact ⟨safe_key_idem k, make_mongo_safe_idem v⟩
    · exact mongoSafeFields_fix fs kv h
end

/-- C5: For every input value (arbitrarily nested mappings, sequences and
scalars), applying the key-rewriting transform `make_mongo_safe` twice
yields the same result as applying it once. -/
theorem c5_make_mongo_safe_idempotent (v : PyVal) :
    make_mongo_safe (make_mongo_safe v) = make_mongo_safe v :=
  make_mongo_safe_idem v

/-! ### Key-safety lemmas (C6) -/

theorem fieldsKeysSafe_iff (fs : List (String × PyVal)) :
    fieldsKeysSafe fs = true ↔
      ∀ kv ∈ fs, goodKey kv.1 = true ∧ allKeysSafe kv.2 = true := by
  induction fs with
  | nil =>
    simp [fieldsKeysSafe]
  | cons f fs ih =>
    rcases f with ⟨k, v⟩
    rw [fieldsKeysSafe]
    constructor
    · intro h kv hkv
      rcases Bool.and_eq_true_iff.mp h with ⟨h1, h2⟩
      rcases Bool.and_eq_true_iff.mp h1 with ⟨hg, ha⟩
      rcases List.mem_cons.mp hkv with h' | h'
      · rw [h']
        exact ⟨hg, ha⟩
      · exact (ih.mp h2) kv h'
    · intro h
      have hk := h (k, v) (List.mem_cons_self _ _)
      rw [hk.1, hk.2, ih.mpr (fun kv hkv => h kv (List.mem_cons_of_mem _ hkv))]
      rfl

theorem listKeysSafe_iff (xs : List PyVal) :
    listKeysSafe xs = true ↔ ∀ y ∈ xs, allKeysSafe y = true := by
  induction xs with
  | nil => simp [listKeysSafe]
  | cons x xs ih =>
    rw [listKeysSafe]
    constructor
    · intro h y hy
      rcases Bool.and_eq_true_iff.mp h with ⟨h1, h2⟩
      rcases List.mem_cons.mp hy with h' | h'
      · rw [h']; exact h1
      · exact (ih.mp h2) y h'
    · intro h
      rw [h x (List.mem_cons_self _ _),
        ih.mpr (fun y hy => h y (List.mem_cons_of_mem _ hy))]
      rfl

mutual
theorem allKeysSafe_mongo : ∀ (v : PyVal), allKeysSafe (make_mongo_safe v) = true
  | .null => rfl
  | .bool _ => rfl
  | .int _ => rfl
  | .str _ => rfl
  | .arr xs => by
    rw [make_mongo_safe, allKeysSafe]
    exact (listKeysSafe_iff _).mpr (listSafe_mongo xs)
  | .obj kvs => by
    rw [make_mongo_safe, allKeysSafe]
    exact (fieldsKeysSafe_iff _).mpr
      (fun kv hkv => fieldsSafe_mongo kvs kv (pyDict_subset _ kv hkv))

theorem listSafe_mongo : ∀ (xs : List PyVal),
    ∀ y ∈ mongoSafeList xs, allKeysSafe y = true
  | [] => by intro y hy; exact absurd hy (List.not_mem_nil y)
  | x :: xs => by
    intro y hy
    rw [mongoSafeList] at hy
    rcases List.mem_cons.mp hy with h | h
    · rw [h]
      exact allKeysSafe_mongo x
    · exact listSafe_mongo xs y h

theorem fieldsSafe_mongo : ∀ (fs : List (String × PyVal)),
    ∀ kv ∈ mongoSafeFields fs, goodKey kv.1 = true ∧ allKeysSafe kv.2 = true
  | [] => by intro kv hkv; exact absurd hkv (List.not_mem_nil kv)
  | (k, v) :: fs => by
    intro kv hkv
    rw [mongoSafeFields] at hkv
    rcases List.mem_cons.mp hkv with h | h
    · rw [h]
      exact ⟨goodKey_safe_key k, allKeysSafe_mongo v⟩
    · exact fieldsSafe_mongo fs kv h
end

/-- C6: after the key-rewriting transform, every mapping key at every
nesting depth contains no `'.'` and does not begin with `'$'`. -/
theorem c6_all_keys_safe (v : PyVal) : allKeysSafe (make_mongo_safe v) = true :=
  allKeysSafe_mongo v

/-- C10: the key-rewriting transform is not injective on mapping keys: the
distinct keys `"a.b"` and `"a_b"` rewrite to the same key, so a mapping
holding both collapses to a single entry, keeping the later value. -/
theorem c10_key_collision :
    safe_key "a.b" = safe_key "a_b"
    ∧ "a.b" ≠ "a_b"
    ∧ make_mongo_safe (PyVal.obj [("a.b", PyVal.int 1), ("a_b", PyVal.int 2)])
        = PyVal.obj [("a_b", PyVal.int 2)]
    ∧ [("a.b", PyVal.int 1), ("a_b", PyVal.int 2)].length = 2
    ∧ [("a_b", PyVal.int 2)].length = 1 :=
  ⟨rfl, by decide, rfl, rfl, rfl⟩


/-! ### String-order lemmas for the watermark (C2) -/

theorem charListLt_irrefl (l : List Char) : charListLt l l = false := by
  induction l with
  | nil => rfl
  | cons a l ih =>
    rw [charListLt]
    simp [ih]

theorem charListLt_asymm (a b : List Char) (h : charListLt a b = true) :
    charListLt b a = false := by
  induction a generalizing b with
  | nil =>
    cases b with
    | nil => simp [charListLt] at h
    | cons y ys => rfl
  | cons x xs ih =>
    cases b with
    | nil => simp [charListLt] at h
    | cons y ys =>
      rw [charListLt] at h
      rw [charListLt]
      by_cases h1 : x.toNat < y.toNat
      · rw [if_neg (by omega), if_pos h1]
      · by_cases h2 : y.toNat < x.toNat
        · rw [if_neg h1, if_pos h2] at h
          exact absurd h (by simp)
        · rw [if_neg h1, if_neg h2] at h
          rw [if_neg h2, if_neg h1]
          exact ih ys h

theorem charListLt_connect (a b c : List Char) (h : charListLt a c = true) :
    charListLt a b = true ∨ charListLt b c = true := by
  induction a generalizing b c with
  | nil =>
    cases b with
    | nil => exact Or.inr h
    | cons z zs => exact Or.inl rfl
  | cons x xs ih =>
    cases c with
    | nil => simp [charListLt] at h
    | cons y ys =>
      cases b with
      | nil => exact Or.inr rfl
      | cons z zs =>
        rw [charListLt] at h
        by_cases hxy : x.toNat < y.toNat
        · by_cases hxz : x.toNat < z.toNat
          · left
            rw [charListLt, if_pos hxz]
          · right
            rw [charListLt, if_pos (by omega)]
        · by_cases hyx : y.toNat < x.toNat
          · rw [if_neg hxy, if_pos hyx] at h
            exact absurd h (by simp)
          · rw [if_neg hxy, if_neg hyx] at h
            by_cases hxz : x.toNat < z.toNat
            · left
              rw [charListLt, if_pos hxz]
            · by_cases hzx : z.toNat < x.toNat
              · right
                rw [charListLt, if_pos (by omega)]
              · rcases ih zs ys h with h' | h'
                · left
                  rw [charListLt, if_neg hxz, if_neg hzx]
                  exact h'
                · right
                  rw [charListLt, if_neg (by omega : ¬ z.toNat < y.toNat),
                    if_neg (by omega : ¬ y.toNat < z.toNat)]
                  exact h'

theorem strLe_refl (s : String) : strLe s s = true := by
  unfold strLe strLt
  rw [charListLt_irrefl]
  rfl

theorem strLe_of_lt (a b : String) (h : strLt a b = true) : strLe a b = true := by
  have h' : charListLt a.toList b.toList = true := h
  unfold strLe strLt
  rw [charListLt_asymm a.toList b.toList h']
  rfl

theorem strLe_trans (a b c : String) (h1 : strLe a b = true)
    (h2 : strLe b c = true) : strLe a c = true := by
  unfold strLe strLt at h1 h2 ⊢
  rw [Bool.not_eq_true'] at h1 h2 ⊢
  by_contra hc
  rw [Bool.not_eq_false] at hc
  rcases charListLt_connect c.toList b.toList a.toList hc with h' | h'
  · rw [h'] at h2
    exact absurd h2 (by simp)
  · rw [h'] at h1
    exact absurd h1 (by simp)

/-! ### Watermark-step lemmas (C2) -/

theorem wmCand_truthy (p : PyVal) (v : PyVal) (h : wmCand p = some v) :
    pyTruthy v = true := by
  cases p with
  | obj kvs =>
    simp only [wmCand] at h
    rcases hm : pyOrOpt (dictGet kvs "modified") (dictGet kvs "created")
        with _ | m <;> rw [hm] at h
    · exact absurd h (by simp)
    · have h' : (if pyTruthy m = true then some m else none) = some v := h
      by_cases ht : pyTruthy m = true
      · rw [if_pos ht] at h'
        rw [← Option.some.inj h']
        exact ht
      · rw [if_neg ht] at h'
        exact absurd h' (by simp)
  | null => simp [wmCand] at h
  | bool b => simp [wmCand] at h
  | int n => simp [wmCand] at h
  | str s => simp [wmCand] at h
  | arr xs => simp [wmCand] at h

theorem wmStep_cand_none (latest : Option PyVal) (p : PyVal)
    (hc : wmCand p = none) : wmStep latest p = latest := by
  unfold wmStep
  rw [hc]

theorem wmStep_from_none (p : PyVal) (m : PyVal) (hc : wmCand p = some m) :
    wmStep none p = some m := by
  unfold wmStep
  rw [hc]

theorem wmStep_gtmatch (s : String) (m p : PyVal) (hc : wmCand p = some m) :
    wmStep (some (PyVal.str s)) p
      = match pyGt m (PyVal.str s) with
        | some true => some m
        | some false => some (PyVal.str s)
        | none => some (PyVal.str s) := by
  unfold wmStep
  rw [hc]

theorem wmStep_str_str (s u : String) (p : PyVal)
    (hc : wmCand p = some (PyVal.str u)) :
    wmStep (some (PyVal.str s)) p
      = if strLt s u then some (PyVal.str u) else some (PyVal.str s) := by
  rw [wmStep_gtmatch s (PyVal.str u) p hc]
  show (match some (strLt s u) with
    | some true => some (PyVal.str u)
    | some false => some (PyVal.str s)
    | none => some (PyVal.str s)) = _
  cases strLt s u
  · rfl
  · rfl

theorem wmStep_keep (s : String) (m p : PyVal) (hc : wmCand p = some m)
    (hns : ∀ u, m ≠ PyVal.str u) :
    wmStep (some (PyVal.str s)) p = some (PyVal.str s) := by
  rw [wmStep_gtmatch s m p hc]
  cases m with
  | str u => exact absurd rfl (hns u)
  | null => rfl
  | bool b => rfl
  | int n => rfl
  | arr xs => rfl
  | obj kvs => rfl

theorem wmStep_str (p : PyVal) (s : String) :
    ∃ t, wmStep (some (PyVal.str s)) p = some (PyVal.str t)
      ∧ strLe s t = true := by
  rcases hc : wmCand p with _ | m
  · exact ⟨s, wmStep_cand_none _ p hc, strLe_refl s⟩
  · cases m with
    | str u =>
      rw [wmStep_str_str s u p hc]
      cases hlt : strLt s u
      · exact ⟨s, by rw [if_neg (by simp)], strLe_refl s⟩
      · exact ⟨u, by rw [if_pos rfl], strLe_of_lt s u hlt⟩
    | null =>
      exact ⟨s, wmStep_keep s _ p hc (fun u h => PyVal.noConfusion h),
        strLe_refl s⟩
    | bool b =>
      exact ⟨s, wmStep_keep s _ p hc (fun u h => PyVal.noConfusion h),
        strLe_refl s⟩
    | int n =>
      exact ⟨s, wmStep_keep s _ p hc (fun u h => PyVal.noConfusion h),
        strLe_refl s⟩
    | arr xs =>
      exact ⟨s, wmStep_keep s _ p hc (fun u h => PyVal.noConfusion h),
        strLe_refl s⟩
    | obj kvs =>
      exact ⟨s, wmStep_keep s _ p hc (fun u h => PyVal.noConfusion h),
        strLe_refl s⟩

theorem wmFold_str_mono (records : List PyVal) (s : String) :
    ∃ t, records.foldl wmStep (some (PyVal.str s)) = some (PyVal.str t)
      ∧ strLe s t = true := by
  induction records generalizing s with
  | nil => exact ⟨s, rfl, strLe_refl s⟩
  | cons p ps ih =>
    rcases wmStep_str p s with ⟨u, hu, hsu⟩
    rcases ih u with ⟨t, ht, hut⟩
    refine ⟨t, ?_, strLe_trans s u t hsu hut⟩
    rw [List.foldl_cons, hu, ht]

theorem wmCandStr_ne_empty (p : PyVal) (s : String) (h : wmCandStr p = some s) :
    s ≠ "" := by
  unfold wmCandStr at h
  rcases hc : wmCand p with _ | m <;> rw [hc] at h
  · exact absurd h (by simp)
  · cases m with
    | str u =>
      have := wmCand_truthy p (PyVal.str u) hc
      rw [← Option.some.inj h]
      simpa [pyTruthy] using this
    | null => exact absurd h (by simp)
    | bool b => exact absurd h (by simp)
    | int n => exact absurd h (by simp)
    | arr xs => exact absurd h (by simp)
    | obj kvs => exact absurd h (by simp)

theorem strListMax_ne_empty (l : Option String) (vals : List String)
    (hl : l ≠ some "") (hv : ∀ v ∈ vals, v ≠ "") :
    strListMax l vals ≠ some "" := by
  induction vals generalizing l with
  | nil => exact hl
  | cons v vs ih =>
    rw [strListMax, List.foldl_cons]
    apply ih
    · cases l with
      | none =>
        show some v ≠ some ""
        simpa using hv v (List.mem_cons_self _ _)
      | some a =>
        show some (maxS a v) ≠ some ""
        have hv' : v ≠ "" := hv v (List.mem_cons_self _ _)
        have ha : a ≠ "" := by simpa using hl
        unfold maxS
        split
        · simpa using hv'
        · simpa using ha
    · exact fun w hw => hv w (List.mem_cons_of_mem _ hw)

theorem wmFold_eq (records : List PyVal) (l : Option String)
    (hl : l ≠ some "") (hall : wmAllStr records = true) :
    records.foldl wmStep (Option.map PyVal.str l)
      = Option.map PyVal.str (strListMax l (records.filterMap wmCandStr)) := by
  induction records generalizing l with
  | nil => rfl
  | cons p ps ih =>
    rw [wmAllStr, List.all_cons, Bool.and_eq_true_iff] at hall
    rcases hall with ⟨hp, hps⟩
    have hps' : wmAllStr ps = true := hps
    rw [List.foldl_cons, List.filterMap_cons]
    rcases hc : wmCand p with _ | m
    · have hcs : wmCandStr p = none := by
        unfold wmCandStr
        rw [hc]
      rw [wmStep_cand_none _ p hc, hcs]
      exact ih l hl hps'
    · rcases m with _ | _ | _ | u | _ | _ <;> rw [hc] at hp
      case str =>
        have hu : u ≠ "" := by
          have := wmCand_truthy p (PyVal.str u) hc
          simpa [pyTruthy] using this
        have hcs : wmCandStr p = some u := by
          unfold wmCandStr
          rw [hc]
        rw [hcs]
        cases l with
        | none =>
          rw [show Option.map PyVal.str none = (none : Option PyVal) from rfl,
            wmStep_from_none p (PyVal.str u) hc]
          exact ih (some u) (by simpa using hu) hps'
        | some a =>
          have ha : a ≠ "" := by simpa using hl
          have hstep : wmStep (Option.map PyVal.str (some a)) p
              = some (PyVal.str (maxS a u)) := by
            rw [show Option.map PyVal.str (some a) = some (PyVal.str a) from rfl,
              wmStep_str_str a u p hc]
            unfold maxS
            split
            · rfl
            · rfl
          rw [hstep]
          have hmx : maxS a u ≠ "" := by
            unfold maxS
            split
            · exact hu
            · exact ha
          exact ih (some (maxS a u)) (by simpa using hmx) hps'
      all_goals exact absurd hp (by simp)

/-! ### Shape of the run loop (bridging `runModel` to the pure folds) -/

theorem foldE_records_shape (runId : String) (nowAt : Nat → String)
    (records : List PyVal) :
    ∀ (st st' : RunState),
      foldE (processRecord runId nowAt) st records = .ok st' →
      st'.latest = records.foldl wmStep st.latest
        ∧ st'.docs_ingested = st.docs_ingested + records.length
        ∧ st'.page_no = st.page_no
        ∧ (st.store = none → st'.store = none) := by
  induction records with
  | nil =>
    intro st st' h
    rw [foldE] at h
    have hst := Except.ok.inj h
    subst hst
    exact ⟨rfl, by simp, rfl, fun hn => hn⟩
  | cons p ps ih =>
    intro st st' h
    rw [foldE] at h
    rcases hpr : processRecord runId nowAt st p with e | st1 <;> rw [hpr] at h
    · simp at h
    · unfold processRecord at hpr
      rcases hms : make_mongo_safe p with _ | b | n | s | xs | kvs <;>
        rw [hms] at hpr
      case null => simp at hpr
      case bool => simp at hpr
      case int => simp at hpr
      case str => simp at hpr
      case arr => simp at hpr
      case obj =>
        have hst1 := Except.ok.inj hpr
        subst hst1
        rcases ih _ st' h with ⟨i1, i2, i3, i4⟩
        refine ⟨?_, ?_, ?_, ?_⟩
        · rw [List.foldl_cons]
          exact i1
        · have i2' : st'.docs_ingested
              = st.docs_ingested + 1 + ps.length := i2
          rw [List.length_cons]
          omega
        · exact i3
        · intro hn
          apply i4
          show Option.map _ st.store = none
          rw [hn]
          rfl

theorem pagesRecords_cons (pg : Page) (pages : List Page) :
    pagesRecords (pg :: pages) = pg.results ++ pagesRecords pages := by
  simp [pagesRecords]

theorem foldE_pages_shape (runId : String) (nowAt : Nat → String)
    (pages : List Page) :
    ∀ (st st' : RunState),
      foldE (processPage runId nowAt) st pages = .ok st' →
      st'.latest = (pagesRecords pages).foldl wmStep st.latest
        ∧ st'.docs_ingested = st.docs_ingested + (pagesRecords pages).length
        ∧ (st.store = none → st'.store = none) := by
  induction pages with
  | nil =>
    intro st st' h
    rw [foldE] at h
    have hst := Except.ok.inj h
    subst hst
    exact ⟨rfl, by simp [pagesRecords], fun hn => hn⟩
  | cons pg pages ih =>
    intro st st' h
    rw [foldE] at h
    rcases hpp : processPage runId nowAt st pg with e | st1 <;> rw [hpp] at h
    · simp at h
    · unfold processPage at hpp
      rcases foldE_records_shape runId nowAt pg.results _ st1 hpp
        with ⟨r1, r2, r3, r4⟩
      rcases ih st1 st' h with ⟨i1, i2, i3⟩
      have r1' : st1.latest = pg.results.foldl wmStep st.latest := r1
      have r2' : st1.docs_ingested
          = st.docs_ingested + pg.results.length := r2
      refine ⟨?_, ?_, ?_⟩
      · rw [pagesRecords_cons, List.foldl_append, i1, r1']
      · rw [pagesRecords_cons, List.length_append, i2, r2']
        omega
      · intro hn
        apply i3
        apply r4
        exact hn

theorem runModel_shape (dryRun : Bool) (runId : String) (nowAt : Nat → String)
    (seed : Option String) (store₀ : Store) (pages : List Page) (r : RunResult)
    (h : runModel dryRun runId nowAt seed store₀ pages = .ok r) :
    r.latest = (pagesRecords pages).foldl wmStep (Option.map PyVal.str seed)
      ∧ r.docs_ingested = (pagesRecords pages).length
      ∧ r.saved = savedOf r.latest
      ∧ (dryRun = true → r.store = none) := by
  unfold runModel at h
  rcases hf : foldE (processPage runId nowAt)
      ⟨0, 0, Option.map PyVal.str seed,
        if dryRun then none else some store₀, 0⟩ pages with e | st <;>
    rw [hf] at h
  · simp at h
  · have hr := Except.ok.inj h
    subst hr
    rcases foldE_pages_shape runId nowAt pages _ st hf with ⟨s1, s2, s3⟩
    have s1' : st.latest
        = (pagesRecords pages).foldl wmStep (Option.map PyVal.str seed) := s1
    have s2' : st.docs_ingested = 0 + (pagesRecords pages).length := s2
    refine ⟨s1', by rw [show (RunResult.mk st.store st.docs_ingested st.latest
        (savedOf st.latest) st.page_no).docs_ingested = st.docs_ingested
      from rfl, s2']; omega, rfl, ?_⟩
    intro hd
    apply s3
    show (if dryRun then none else some store₀) = none
    rw [hd]
    rfl

/-- C2: over any run, the tracked watermark ends at the maximum — in
Python's string order on ISO timestamps — of the resume-point seed and
every record's `modified`-or-`created` candidate; the value handed to
`save_watermark` is exactly that tracked value; and at every prefix of the
record sequence the tracked watermark is at least the seed (it never
decreases).  Records whose candidate is not a (truthy) string would be
skipped by the code's `except` guard and are excluded by `wmAllStr`. -/
theorem c2_watermark_max (dryRun : Bool) (runId : String) (nowAt : Nat → String)
    (seed : Option String) (store₀ : Store) (pages : List Page) (r : RunResult)
    (h : runModel dryRun runId nowAt seed store₀ pages = .ok r)
    (hseed : seed ≠ some "")
    (hstr : wmAllStr (pagesRecords pages) = true) :
    r.latest = Option.map PyVal.str
        (strListMax seed ((pagesRecords pages).filterMap wmCandStr))
      ∧ r.saved = r.latest
      ∧ (∀ s, seed = some s → ∀ n, ∃ t,
          runLatest seed ((pagesRecords pages).take n) = some (PyVal.str t)
            ∧ strLe s t = true) := by
  rcases runModel_shape dryRun runId nowAt seed store₀ pages r h
    with ⟨h1, _, h3, _⟩
  have heq := wmFold_eq (pagesRecords pages) seed hseed hstr
  have hlat : r.latest = Option.map PyVal.str
      (strListMax seed ((pagesRecords pages).filterMap wmCandStr)) := by
    rw [h1, heq]
  refine ⟨hlat, ?_, ?_⟩
  · rw [h3, hlat]
    rcases hm : strListMax seed ((pagesRecords pages).filterMap wmCandStr)
      with _ | t
    · rfl
    · have ht : t ≠ "" := by
        have hne := strListMax_ne_empty seed
          ((pagesRecords pages).filterMap wmCandStr) hseed ?_
        · rw [hm] at hne
          simpa using hne
        · intro v hv
          rcases List.mem_filterMap.mp hv with ⟨p, _, hp⟩
          exact wmCandStr_ne_empty p v hp
      show (if pyTruthy (PyVal.str t) = true then some (PyVal.str t) else none)
          = some (PyVal.str t)
      rw [if_pos (by simpa [pyTruthy] using ht)]
  · intro s hs n
    rw [hs]
    exact wmFold_str_mono (((pagesRecords pages)).take n) s

/-- Witness for C2 at a concrete run: one page holding a record with
`modified` and a record with only `created`, seeded from an earlier
timestamp. -/
theorem c2_watermark_max_witness :
    (RunResult.mk none 2 (some (PyVal.str "2025-03-01T00:00:00+00:00"))
        (some (PyVal.str "2025-03-01T00:00:00+00:00")) 1).latest
      = Option.map PyVal.str (strListMax (some "2025-01-01T00:00:00+00:00")
          ((pagesRecords
            [⟨none, [PyVal.obj [("modified", PyVal.str "2025-03-01T00:00:00+00:00")],
              PyVal.obj [("created", PyVal.str "2025-02-01T00:00:00+00:00")]]⟩]).filterMap
            wmCandStr)) :=
  (c2_watermark_max true "r" (fun _ => "T") (some "2025-01-01T00:00:00+00:00")
    [] [⟨none, [PyVal.obj [("modified", PyVal.str "2025-03-01T00:00:00+00:00")],
      PyVal.obj [("created", PyVal.str "2025-02-01T00:00:00+00:00")]]⟩]
    (RunResult.mk none 2 (some (PyVal.str "2025-03-01T00:00:00+00:00"))
      (some (PyVal.str "2025-03-01T00:00:00+00:00")) 1)
    rfl (by decide) rfl).1

/-- C8 counterexample: a dry run over one page with one record that has no
`modified`/`created` field and no seed — a record is seen
(`docs_ingested = 1`) yet no watermark is persisted, contradicting
"watermark still persisted whenever at least one record was seen". -/
theorem c8_record_seen_nothing_persisted :
    (match runModel true "r" (fun _ => "T") none [] [⟨none, [PyVal.obj []]⟩] with
      | .ok r => 1 ≤ r.docs_ingested ∧ r.saved = none ∧ r.store = none
      | .error _ => False) :=
  ⟨Nat.le_refl 1, rfl, rfl⟩

/-- C8 (amended): with the dry-run flag set no storage connection is opened
and no document is written (the collection stays `None`), the ingested
count is still computed over all fetched records, and the watermark is
still persisted whenever the tracked watermark is truthy at the end of the
run (a non-empty seed or at least one record carrying a truthy
`modified`/`created` value — not merely whenever a record was seen). -/
theorem c8_dry_run_skips_store (runId : String) (nowAt : Nat → String)
    (seed : Option String) (store₀ : Store) (pages : List Page) (r : RunResult)
    (h : runModel true runId nowAt seed store₀ pages = .ok r) :
    r.store = none
      ∧ r.docs_ingested = (pagesRecords pages).length
      ∧ (∀ v, r.latest = some v → pyTruthy v = true → r.saved = some v) := by
  rcases runModel_shape true runId nowAt seed store₀ pages r h
    with ⟨_, h2, h3, h4⟩
  refine ⟨h4 rfl, h2, ?_⟩
  intro v hv htr
  rw [h3, hv]
  show (if pyTruthy v = true then some v else none) = some v
  rw [if_pos htr]

/-- Witness for the amended C8 at a concrete dry run. -/
theorem c8_dry_run_skips_store_witness :
    (RunResult.mk none 1 (some (PyVal.str "2025-03-01T00:00:00+00:00"))
        (some (PyVal.str "2025-03-01T00:00:00+00:00")) 1).store = none
      ∧ (RunResult.mk none 1 (some (PyVal.str "2025-03-01T00:00:00+00:00"))
          (some (PyVal.str "2025-03-01T00:00:00+00:00")) 1).docs_ingested
        = (pagesRecords
            [⟨none, [PyVal.obj [("modified",
              PyVal.str "2025-03-01T00:00:00+00:00")]]⟩]).length :=
  ⟨(c8_dry_run_skips_store "r" (fun _ => "T") none []
      [⟨none, [PyVal.obj [("modified", PyVal.str "2025-03-01T00:00:00+00:00")]]⟩]
      (RunResult.mk none 1 (some (PyVal.str "2025-03-01T00:00:00+00:00"))
        (some (PyVal.str "2025-03-01T00:00:00+00:00")) 1) rfl).1,
    (c8_dry_run_skips_store "r" (fun _ => "T") none []
      [⟨none, [PyVal.obj [("modified", PyVal.str "2025-03-01T00:00:00+00:00")]]⟩]
      (RunResult.mk none 1 (some (PyVal.str "2025-03-01T00:00:00+00:00"))
        (some (PyVal.str "2025-03-01T00:00:00+00:00")) 1) rfl).2.1⟩

/-! ### C1: the fingerprint natural key across two identical runs -/

/-- C1 fails on the code: re-running over the identical page with the same
(absent) resume point duplicates a record that has no `id`.  The first run
leaves one stored document; the second run computes a different fingerprint
— the canonical JSON it hashes contains the fresh `run_id` and
`ingested_at` envelope values — so its upsert inserts a second document
instead of replacing, and the two stored keys do not match. -/
theorem c1_fingerprint_duplicates :
    c1s1.length = 1 ∧ c1s2.length = 2
      ∧ (match c1s2 with
         | [e1, e2] => keyBeq e1.1 e2.1 = false
         | _ => False) :=
  ⟨rfl, rfl, rfl⟩

/-! ### C3: failed authentication aborts before extraction -/

/-- C3: any identity-check response with a non-200 status makes the run
abort with exit code 1 before any listing request is issued; the `[fatal]`
diagnostic carries the status code and the response body truncated to 200
characters, and in particular contains the status code as a substring. -/
theorem c3_auth_fatal (resp : HttpResponse) (server : String → Except String Page)
    (limit fuel : Nat) (dryRun : Bool) (runId : String) (nowAt : Nat → String)
    (cli : Option String) (noWm : Bool) (path : String) (file : WmFile)
    (envDefault : String) (store₀ : Store) (hstatus : resp.status ≠ 200) :
    mainModel resp server limit fuel dryRun runId nowAt cli noWm path file
        envDefault store₀
      = ⟨1, some ("[fatal] " ++ ("OTX API key validation failed: "
          ++ toString resp.status ++ " " ++ resp.text.take 200)), false, none⟩
    ∧ ∃ pre post, "[fatal] " ++ ("OTX API key validation failed: "
          ++ toString resp.status ++ " " ++ resp.text.take 200)
        = pre ++ toString resp.status ++ post := by
  constructor
  · unfold mainModel validate_api_key
    rw [if_pos hstatus]
  · refine ⟨"[fatal] " ++ "OTX API key validation failed: ",
      " " ++ resp.text.take 200, ?_⟩
    simp only [String.append_assoc]

/-- Witness for C3 at status 403: the process outcome is exit code 1, a
diagnostic containing "403", and no extraction attempted. -/
theorem c3_auth_fatal_witness :
    mainModel ⟨403, "Forbidden", PyVal.null⟩ (fun _ => Except.error "unused")
        50 1 false "r" (fun _ => "T") none false ".otx_watermark.json"
        WmFile.absent "" []
      = ⟨1, some ("[fatal] " ++ ("OTX API key validation failed: "
          ++ toString (403 : Nat) ++ " " ++ ("Forbidden".take 200))), false,
          none⟩ :=
  (c3_auth_fatal ⟨403, "Forbidden", PyVal.null⟩ (fun _ => Except.error "unused")
    50 1 false "r" (fun _ => "T") none false ".otx_watermark.json"
    WmFile.absent "" [] (by decide)).1

/-! ### C4: pagination follows the `next` chain and terminates -/

theorem expectedChain_none (chain : List (String × Page)) :
    expectedChain none chain
      = chain.map (fun e => (⟨e.1, none⟩, e.2)) := by
  cases chain with
  | nil => rfl
  | cons e rest =>
    rcases e with ⟨u, pg⟩
    rw [expectedChain, List.map_cons]
    rw [ite_self]

theorem fetchGo_ok (server : String → Except String Page) (f : Nat)
    (url : String) (params : Option ReqParams) (pg : Page)
    (hs : server url = .ok pg) :
    fetchGo server (f + 1) url params
      = match pg.next with
        | none => .ok [(⟨url, if hasQuery url then none else params⟩, pg)]
        | some u =>
          match fetchGo server f u none with
          | .error e => .error e
          | .ok rest =>
            .ok ((⟨url, if hasQuery url then none else params⟩, pg) :: rest) := by
  rw [fetchGo, hs]

theorem fetchGo_chain (server : String → Except String Page)
    (chain : List (String × Page)) :
    ∀ (h₁ : chain ≠ [])
      (hs : ∀ e ∈ chain, server e.1 = .ok e.2)
      (hch : List.Chain' (fun a b => a.2.next = some b.1) chain)
      (hlast : (chain.getLast h₁).2.next = none)
      (params : Option ReqParams) (fuel : Nat)
      (hfuel : chain.length ≤ fuel),
      fetchGo server fuel (chain.head h₁).1 params
        = .ok (expectedChain params chain) := by
  induction chain with
  | nil => intro h₁; exact absurd rfl h₁
  | cons e rest ih =>
    intro h₁ hs hch hlast params fuel hfuel
    rcases e with ⟨u, pg⟩
    cases fuel with
    | zero => simp at hfuel
    | succ f =>
      show fetchGo server (f + 1) u params = _
      rw [fetchGo_ok server f u params pg (hs (u, pg) (List.mem_cons_self _ _))]
      cases rest with
      | nil =>
        have hnext : pg.next = none := hlast
        rw [hnext]
        rfl
      | cons b rest' =>
        have hnext : pg.next = some b.1 := (List.chain'_cons.mp hch).1
        rw [hnext]
        have hlast' : ((b :: rest').getLast (List.cons_ne_nil b rest')).2.next
            = none := by
          rw [List.getLast_cons (List.cons_ne_nil b rest')] at hlast
          exact hlast
        have hfuel' : (b :: rest').length ≤ f := by
          simp only [List.length_cons] at hfuel ⊢
          omega
        have hih := ih (List.cons_ne_nil b rest')
          (fun x hx => hs x (List.mem_cons_of_mem _ hx))
          (List.chain'_cons.mp hch).2 hlast' none f hfuel'
        have hih' : fetchGo server f b.1 none
            = .ok (expectedChain none (b :: rest')) := hih
        show (match fetchGo server f b.1 none with
          | Except.error e => Except.error e
          | Except.ok rest =>
            Except.ok ((⟨u, if hasQuery u then none else params⟩, pg) :: rest))
          = Except.ok (expectedChain params ((u, pg) :: b :: rest'))
        rw [hih']
        show Except.ok ((⟨u, if hasQuery u then none else params⟩, pg)
            :: expectedChain none (b :: rest'))
          = Except.ok (expectedChain params ((u, pg) :: b :: rest'))
        rw [expectedChain_none, expectedChain]

/-- C4: over a finite chain of pages in which each of the first n-1 pages
carries a `next` URL naming the following page and the last page has none,
the extractor returns exactly those n pages: one request per page, each
subsequent request at exactly the URL from the prior response's `next`
field with no query parameters re-added (only the first request carries the
`limit`/`modified_since` params), and extraction stops there for any
sufficient fuel bound. -/
theorem c4_pagination_chain (server : String → Except String Page)
    (chain : List (String × Page)) (h₁ : chain ≠ [])
    (hs : ∀ e ∈ chain, server e.1 = .ok e.2)
    (hch : List.Chain' (fun a b => a.2.next = some b.1) chain)
    (hlast : (chain.getLast h₁).2.next = none)
    (hhead : (chain.head h₁).1 = otxPulsesSubscribedUrl)
    (limit fuel : Nat) (ms : Option String) (hfuel : chain.length ≤ fuel) :
    fetch_pulses server limit ms fuel
      = .ok (expectedChain (some (initParams limit ms)) chain)
    ∧ (expectedChain (some (initParams limit ms)) chain).length
      = chain.length := by
  constructor
  · unfold fetch_pulses
    rw [← hhead]
    exact fetchGo_chain server chain h₁ hs hch hlast _ fuel hfuel
  · cases chain with
    | nil => rfl
    | cons e rest =>
      rcases e with ⟨u, pg⟩
      rw [expectedChain]
      simp

/-- Witness for C4: a concrete two-page chain is fetched as exactly two
requests/pages. -/
theorem c4_pagination_chain_witness :
    fetch_pulses c4server 50 (some "2025-01-01T00:00:00+00:00") 2
      = .ok (expectedChain (some (initParams 50
          (some "2025-01-01T00:00:00+00:00"))) c4chain)
    ∧ (expectedChain (some (initParams 50
        (some "2025-01-01T00:00:00+00:00"))) c4chain).length
      = c4chain.length :=
  c4_pagination_chain c4server c4chain
    (by unfold c4chain; exact List.cons_ne_nil _ _)
    (by
      intro e he
      fin_cases he
      · rfl
      · rfl)
    (by
      refine List.chain'_cons.mpr ⟨rfl, List.chain'_singleton _⟩)
    rfl rfl 50 2 (some "2025-01-01T00:00:00+00:00") (by decide)

/-! ### C7: resume-point resolution order -/

/-- C7: for every combination of CLI override, skip flag, watermark-file
state and configured default — with the timestamps themselves non-empty, as
ISO-8601 timestamps are — the resume point is resolved as: CLI override
first, then the persisted file value unless the skip flag is set, then the
configured default, else none; and an absent or unreadable/unparseable
watermark file simply yields "no watermark" (the loader is total — no
fatal error path). -/
theorem c7_resume_resolution (cli : Option String) (noWm : Bool)
    (path : String) (file : WmFile) (dflt : Option String)
    (hcli : cli ≠ some "")
    (hfile : ∀ s, load_watermark path file = some s → s ≠ "")
    (hdflt : dflt ≠ some "") :
    resolveSince cli noWm path file (dflt.getD "")
        = resolveSinceSpec cli noWm path file dflt
      ∧ load_watermark path WmFile.absent = none
      ∧ load_watermark path WmFile.unreadable = none := by
  refine ⟨?_, ?_, ?_⟩
  · cases cli with
    | some s =>
      have hs : s ≠ "" := by simpa using hcli
      simp [resolveSince, resolveSinceSpec, pyOrS, hs]
    | none =>
      cases noWm with
      | true =>
        cases dflt with
        | none => simp [resolveSince, resolveSinceSpec, pyOrS]
        | some d =>
          have hd : d ≠ "" := by simpa using hdflt
          simp [resolveSince, resolveSinceSpec, pyOrS, hd]
      | false =>
        rcases hlw : load_watermark path file with _ | w
        · cases dflt with
          | none => simp [resolveSince, resolveSinceSpec, pyOrS, hlw]
          | some d =>
            have hd : d ≠ "" := by simpa using hdflt
            simp [resolveSince, resolveSinceSpec, pyOrS, hlw, hd]
        · have hw : w ≠ "" := hfile w hlw
          simp [resolveSince, resolveSinceSpec, pyOrS, hlw, hw]
  · unfold load_watermark
    split
    · rfl
    · rfl
  · unfold load_watermark
    split
    · rfl
    · rfl

/-- Witness for C7: a CLI override beats a parsed watermark file. -/
theorem c7_resume_resolution_witness :
    resolveSince (some "2025-01-01T00:00:00+00:00") false "wm.json"
        (WmFile.parsed (some "2025-02-02T00:00:00+00:00")) ""
      = resolveSinceSpec (some "2025-01-01T00:00:00+00:00") false "wm.json"
        (WmFile.parsed (some "2025-02-02T00:00:00+00:00")) none :=
  (c7_resume_resolution (some "2025-01-01T00:00:00+00:00") false "wm.json"
    (WmFile.parsed (some "2025-02-02T00:00:00+00:00")) none
    (by decide)
    (fun s h => by
      have h' : some "2025-02-02T00:00:00+00:00" = some s := h
      rw [← Option.some.inj h']
      decide)
    (by decide)).1

/-! ### Dict-lookup lemmas for the envelope (C9) -/

theorem dictGet_map_set (d : List (String × PyVal)) (k : String) (v : PyVal)
    (h : d.any (fun kv => kv.1 = k) = true) :
    dictGet (d.map (fun kv => if kv.1 = k then (k, v) else kv)) k = some v := by
  induction d with
  | nil => simp at h
  | cons kv r ih =>
    rw [List.map_cons, dictGet]
    by_cases hk : kv.1 = k
    · rw [if_pos hk]
      rw [if_pos rfl]
    · rw [if_neg hk, if_neg hk]
      apply ih
      rw [List.any_cons] at h
      simpa [hk] using h

theorem dictGet_append_single (d : List (String × PyVal)) (k : String)
    (v : PyVal) (h : ∀ kv ∈ d, kv.1 ≠ k) :
    dictGet (d ++ [(k, v)]) k = some v := by
  induction d with
  | nil => simp [dictGet]
  | cons kv r ih =>
    rw [List.cons_append, dictGet,
      if_neg (h kv (List.mem_cons_self _ _))]
    exact ih (fun x hx => h x (List.mem_cons_of_mem _ hx))

theorem dictGet_dictSet_same (d : List (String × PyVal)) (k : String)
    (v : PyVal) : dictGet (dictSet d k v) k = some v := by
  unfold dictSet
  split
  · next h => exact dictGet_map_set d k v h
  · next h =>
    apply dictGet_append_single
    intro kv hkv hk
    apply h
    exact List.any_eq_true.mpr ⟨kv, hkv, by simpa using hk⟩

theorem dictGet_map_ne (d : List (String × PyVal)) (k : String) (v : PyVal)
    (k' : String) (h : k' ≠ k) :
    dictGet (d.map (fun kv => if kv.1 = k then (k, v) else kv)) k'
      = dictGet d k' := by
  induction d with
  | nil => rfl
  | cons kv r ih =>
    rw [List.map_cons, dictGet, dictGet]
    by_cases hk : kv.1 = k
    · rw [if_pos hk]
      rw [if_neg (fun hkk : k = k' => h hkk.symm),
        if_neg (fun hkk : kv.1 = k' => h (hk ▸ hkk.symm))]
      exact ih
    · rw [if_neg hk]
      by_cases hk' : kv.1 = k'
      · rw [if_pos hk', if_pos hk']
      · rw [if_neg hk', if_neg hk']
        exact ih

theorem dictGet_append_ne (d : List (String × PyVal)) (k : String) (v : PyVal)
    (k' : String) (h : k' ≠ k) :
    dictGet (d ++ [(k, v)]) k' = dictGet d k' := by
  induction d with
  | nil =>
    simp [dictGet, Ne.symm h]
  | cons kv r ih =>
    rw [List.cons_append, dictGet, dictGet]
    by_cases hk' : kv.1 = k'
    · rw [if_pos hk', if_pos hk']
    · rw [if_neg hk', if_neg hk']
      exact ih

theorem dictGet_dictSet_ne (d : List (String × PyVal)) (k : String)
    (v : PyVal) (k' : String) (h : k' ≠ k) :
    dictGet (dictSet d k v) k' = dictGet d k' := by
  unfold dictSet
  split
  · exact dictGet_map_ne d k v k' h
  · exact dictGet_append_ne d k v k' h

theorem envelopeDoc_gets (kvs : Doc) (rid now : String) (pn : Nat) :
    dictGet (envelopeDoc kvs rid now pn) "_source"
        = some (PyVal.str "otx_pulses_subscribed")
      ∧ dictGet (envelopeDoc kvs rid now pn) "ingested_at"
        = some (PyVal.str now)
      ∧ dictGet (envelopeDoc kvs rid now pn) "run_id" = some (PyVal.str rid)
      ∧ dictGet (envelopeDoc kvs rid now pn) "page_no"
        = some (PyVal.int (Int.ofNat pn)) := by
  unfold envelopeDoc
  refine ⟨?_, ?_, ?_, ?_⟩
  · rw [dictGet_dictSet_ne _ _ _ _ (by decide),
      dictGet_dictSet_ne _ _ _ _ (by decide),
      dictGet_dictSet_ne _ _ _ _ (by decide),
      dictGet_dictSet_same]
  · rw [dictGet_dictSet_ne _ _ _ _ (by decide),
      dictGet_dictSet_ne _ _ _ _ (by decide),
      dictGet_dictSet_same]
  · rw [dictGet_dictSet_ne _ _ _ _ (by decide),
      dictGet_dictSet_same]
  · rw [dictGet_dictSet_same]

theorem envelopeDoc_run_id_pairs (kvs : Doc) (rid now : String) (pn : Nat) :
    ∀ kv ∈ envelopeDoc kvs rid now pn, kv.1 = "run_id"
      → kv.2 = PyVal.str rid := by
  intro kv hkv hk
  unfold envelopeDoc at hkv
  rcases dictSet_mem _ _ _ _ hkv with h | ⟨h, hne⟩
  · rw [h] at hk
    exact absurd hk (by decide : ¬("page_no" : String) = "run_id")
  · rcases dictSet_mem _ _ _ _ h with h2 | ⟨_, hne2⟩
    · rw [h2]
    · exact absurd hk hne2

theorem dictGet_mem (d : List (String × PyVal)) (k : String) (v : PyVal)
    (h : dictGet d k = some v) : (k, v) ∈ d := by
  induction d with
  | nil => simp [dictGet] at h
  | cons kv r ih =>
    rcases kv with ⟨k₀, v₀⟩
    rw [dictGet] at h
    by_cases hk : k₀ = k
    · rw [if_pos hk] at h
      have hv := Option.some.inj h
      rw [← hk, ← hv]
      exact List.mem_cons_self _ _
    · rw [if_neg hk] at h
      exact List.mem_cons_of_mem _ (ih h)

theorem setFields_get_of_not_mem (new : Doc) :
    ∀ (old : Doc) (k : String), (∀ kv ∈ new, kv.1 ≠ k) →
      dictGet (setFields old new) k = dictGet old k := by
  induction new with
  | nil => intro old k _; rfl
  | cons f r ih =>
    intro old k h
    show dictGet (setFields (dictSet old f.1 f.2) r) k = dictGet old k
    rw [ih (dictSet old f.1 f.2) k (fun x hx => h x (List.mem_cons_of_mem _ hx)),
      dictGet_dictSet_ne _ _ _ _
        (fun hkk => h f (List.mem_cons_self _ _) hkk.symm)]

theorem setFields_get_of_mem (new : Doc) :
    ∀ (old : Doc) (k : String) (w : PyVal),
      (∀ kv ∈ new, kv.1 = k → kv.2 = w) → (∃ kv ∈ new, kv.1 = k) →
      dictGet (setFields old new) k = some w := by
  induction new with
  | nil =>
    intro old k w _ hex
    rcases hex with ⟨kv, hkv, _⟩
    exact absurd hkv (List.not_mem_nil kv)
  | cons f r ih =>
    intro old k w hall hex
    show dictGet (setFields (dictSet old f.1 f.2) r) k = some w
    by_cases hr : ∃ kv ∈ r, kv.1 = k
    · exact ih (dictSet old f.1 f.2) k w
        (fun kv hkv hk => hall kv (List.mem_cons_of_mem _ hkv) hk) hr
    · have hf1 : f.1 = k := by
        rcases hex with ⟨kv, hkv, hk⟩
        rcases List.mem_cons.mp hkv with heq | hmem
        · rw [← heq]
          exact hk
        · exact absurd ⟨kv, hmem, hk⟩ hr
      have hf2 : f.2 = w := hall f (List.mem_cons_self _ _) hf1
      rw [setFields_get_of_not_mem r (dictSet old f.1 f.2) k
        (fun kv hkv hk => hr ⟨kv, hkv, hk⟩)]
      rw [hf1, hf2]
      exact dictGet_dictSet_same old k w

/-! ### The `run_id` invariant of the store (C9) -/

theorem replaceFirst_run_id (rid : String) :
    ∀ (s : Store) (key : NatKey) (doc : Doc),
      (∀ e ∈ s, dictGet e.2 "run_id" = some (PyVal.str rid)) →
      (∀ kv ∈ doc, kv.1 = "run_id" → kv.2 = PyVal.str rid) →
      (∃ kv ∈ doc, kv.1 = "run_id") →
      ∀ e ∈ replaceFirst s key doc,
        dictGet e.2 "run_id" = some (PyVal.str rid)
  | [], _, _, _, _, _ => by
    intro e he
    rw [replaceFirst] at he
    exact absurd he (List.not_mem_nil e)
  | e₀ :: r, key, doc, hs, hall, hex => by
    intro e he
    rw [replaceFirst] at he
    split at he
    · rcases List.mem_cons.mp he with heq | hmem
      · rw [heq]
        show dictGet (setFields e₀.2 doc) "run_id" = some (PyVal.str rid)
        exact setFields_get_of_mem doc e₀.2 "run_id" (PyVal.str rid) hall hex
      · exact hs e (List.mem_cons_of_mem _ hmem)
    · rcases List.mem_cons.mp he with heq | hmem
      · rw [heq]
        exact hs e₀ (List.mem_cons_self _ _)
      · exact replaceFirst_run_id rid r key doc
          (fun x hx => hs x (List.mem_cons_of_mem _ hx)) hall hex e hmem

theorem upsert_run_id (rid : String) (s : Store) (doc : Doc)
    (hs : ∀ e ∈ s, dictGet e.2 "run_id" = some (PyVal.str rid))
    (hall : ∀ kv ∈ doc, kv.1 = "run_id" → kv.2 = PyVal.str rid)
    (hex : ∃ kv ∈ doc, kv.1 = "run_id")
    (hget : dictGet doc "run_id" = some (PyVal.str rid)) :
    ∀ e ∈ upsert_pulse s doc,
      dictGet e.2 "run_id" = some (PyVal.str rid) := by
  intro e he
  simp only [upsert_pulse] at he
  split at he
  · exact replaceFirst_run_id rid s (naturalKey doc) doc hs hall hex e he
  · rcases List.mem_append.mp he with h | h
    · exact hs e h
    · have : e = (naturalKey doc, doc) := by simpa using h
      rw [this]
      exact hget

theorem foldE_records_run_id (runId : String) (nowAt : Nat → String)
    (records : List PyVal) :
    ∀ (st st' : RunState),
      foldE (processRecord runId nowAt) st records = .ok st' →
      (∀ s, st.store = some s →
        ∀ e ∈ s, dictGet e.2 "run_id" = some (PyVal.str runId)) →
      ∀ s', st'.store = some s' →
        ∀ e ∈ s', dictGet e.2 "run_id" = some (PyVal.str runId) := by
  induction records with
  | nil =>
    intro st st' h hinv
    rw [foldE] at h
    have hst := Except.ok.inj h
    subst hst
    exact hinv
  | cons p ps ih =>
    intro st st' h hinv
    rw [foldE] at h
    rcases hpr : processRecord runId nowAt st p with e | st1 <;> rw [hpr] at h
    · simp at h
    · unfold processRecord at hpr
      rcases hms : make_mongo_safe p with _ | b | n | s | xs | kvs <;>
        rw [hms] at hpr
      case null => simp at hpr
      case bool => simp at hpr
      case int => simp at hpr
      case str => simp at hpr
      case arr => simp at hpr
      case obj =>
        have hst1 := Except.ok.inj hpr
        subst hst1
        apply ih _ st' h
        intro s1 hs1 e he
        rcases hst : st.store with _ | s0 <;> rw [hst] at hs1
        · simp at hs1
        · have hs1' : upsert_pulse s0
              (envelopeDoc kvs runId (nowAt st.clock) st.page_no) = s1 := by
            simpa using hs1
          rw [← hs1'] at he
          have hget := (envelopeDoc_gets kvs runId (nowAt st.clock)
            st.page_no).2.2.1
          exact upsert_run_id runId s0 _ (hinv s0 hst)
            (envelopeDoc_run_id_pairs kvs runId (nowAt st.clock) st.page_no)
            ⟨("run_id", PyVal.str runId), dictGet_mem _ _ _ hget, rfl⟩
            hget e he

theorem foldE_pages_run_id (runId : String) (nowAt : Nat → String)
    (pages : List Page) :
    ∀ (st st' : RunState),
      foldE (processPage runId nowAt) st pages = .ok st' →
      (∀ s, st.store = some s →
        ∀ e ∈ s, dictGet e.2 "run_id" = some (PyVal.str runId)) →
      ∀ s', st'.store = some s' →
        ∀ e ∈ s', dictGet e.2 "run_id" = some (PyVal.str runId) := by
  induction pages with
  | nil =>
    intro st st' h hinv
    rw [foldE] at h
    have hst := Except.ok.inj h
    subst hst
    exact hinv
  | cons pg pages ih =>
    intro st st' h hinv
    rw [foldE] at h
    rcases hpp : processPage runId nowAt st pg with e | st1 <;> rw [hpp] at h
    · simp at h
    · unfold processPage at hpp
      apply ih st1 st' h
      apply foldE_records_run_id runId nowAt pg.results _ st1 hpp
      intro s hsst
      exact hinv s hsst

/-- C9: the stored document's `_source`, `ingested_at`, `run_id` and
`page_no` fields equal the run-generated envelope values — the envelope
assignment overwrites any same-named field surviving key rewriting of the
raw record — and every document stored by one invocation carries that
invocation's single `run_id`. -/
theorem c9_envelope :
    (∀ (kvs : Doc) (rid now : String) (pn : Nat),
      dictGet (envelopeDoc kvs rid now pn) "_source"
          = some (PyVal.str "otx_pulses_subscribed")
        ∧ dictGet (envelopeDoc kvs rid now pn) "ingested_at"
          = some (PyVal.str now)
        ∧ dictGet (envelopeDoc kvs rid now pn) "run_id"
          = some (PyVal.str rid)
        ∧ dictGet (envelopeDoc kvs rid now pn) "page_no"
          = some (PyVal.int (Int.ofNat pn)))
    ∧ (∀ (rid : String) (nowAt : Nat → String) (seed : Option String)
        (pages : List Page) (r : RunResult) (s : Store),
        runModel false rid nowAt seed [] pages = .ok r →
        r.store = some s →
        ∀ e ∈ s, dictGet e.2 "run_id" = some (PyVal.str rid)) := by
  constructor
  · exact envelopeDoc_gets
  · intro rid nowAt seed pages r s h hstore
    unfold runModel at h
    rcases hf : foldE (processPage rid nowAt)
        ⟨0, 0, Option.map PyVal.str seed,
          if false then none else some [], 0⟩ pages with e | st <;>
      rw [hf] at h
    · simp at h
    · have hr := Except.ok.inj h
      subst hr
      have hstore' : st.store = some s := hstore
      apply foldE_pages_run_id rid nowAt pages _ st hf ?_ s hstore'
      intro s0 hs0 e he
      have hs0' : some [] = some s0 := hs0
      rw [← Option.some.inj hs0'] at he
      exact absurd he (List.not_mem_nil e)

/-- Witness for C9 at a concrete non-dry run over one record: the stored
document carries the run's `run_id`. -/
theorem c9_envelope_witness :
    dictGet [("id", PyVal.int 1),
        ("_source", PyVal.str "otx_pulses_subscribed"),
        ("ingested_at", PyVal.str "T"), ("run_id", PyVal.str "rid"),
        ("page_no", PyVal.int 1)] "run_id"
      = some (PyVal.str "rid") :=
  (c9_envelope.2 "rid" (fun _ => "T") none
    [⟨none, [PyVal.obj [("id", PyVal.int 1)]]⟩]
    (RunResult.mk
      (some [(NatKey.idRev (PyVal.int 1) none,
        [("id", PyVal.int 1),
          ("_source", PyVal.str "otx_pulses_subscribed"),
          ("ingested_at", PyVal.str "T"), ("run_id", PyVal.str "rid"),
          ("page_no", PyVal.int 1)])])
      1 none none 1)
    [(NatKey.idRev (PyVal.int 1) none,
      [("id", PyVal.int 1),
        ("_source", PyVal.str "otx_pulses_subscribed"),
        ("ingested_at", PyVal.str "T"), ("run_id", PyVal.str "rid"),
        ("page_no", PyVal.int 1)])]
    rfl rfl)
    (NatKey.idRev (PyVal.int 1) none,
      [("id", PyVal.int 1),
        ("_source", PyVal.str "otx_pulses_subscribed"),
        ("ingested_at", PyVal.str "T"), ("run_id", PyVal.str "rid"),
        ("page_no", PyVal.int 1)])
    (List.mem_cons_self _ _)
